import Mathlib

/-!
# Verification of the `morse` repository

Shallow embedding of the AVL binary search tree with lazy deletion
(`src/adt/bitree.c`, `src/adt/bistree.c`) and of the Morse codec built on
top of it (`src/morse.c`, `include/morse.h`), together with proofs and
refutations of the specification's claims.

Machine integers: the C code uses `int` balance factors (only ever
-1, 0, 1 plus comparator results), modelled as `Int`; sizes and string
lengths are modelled as `Nat`; C strings are modelled as `List Char`
(NUL-terminated C strings cannot contain an interior `'\0'`).
Allocation failure (`malloc` returning NULL) is not modelled: in the
model every allocation succeeds.
-/

namespace MorseRepo

/-! ## Balance factor constants (`bistree.h`) -/

def AVL_LEFT_HEAVY : Int := 1

def AVL_BALANCED : Int := 0

def AVL_RIGHT_HEAVY : Int := -1

/-!
## Tree data model

A `bitree_node_td` whose `data` points to an `avl_node_td` record
`{data, is_hidden, factor}` (`bistree.h`).  A node of `BTree α` carries
the payload, the hidden flag and the balance factor directly; `nil`
models a NULL child pointer.
-/

inductive BTree (α : Type) where
  | nil : BTree α
  | node : BTree α → α → Bool → Int → BTree α → BTree α
deriving DecidableEq

namespace BTree

/-- `bitree_size` after a sequence of insertions: number of nodes. -/
def size : BTree α → Nat
  | .nil => 0
  | .node l _ _ _ r => size l + size r + 1

/-- Height of a tree (empty tree has height 0); used to state what the
balance factors of the C code are supposed to track. -/
def hgt : BTree α → Nat
  | .nil => 0
  | .node l _ _ _ r => max (hgt l) (hgt r) + 1

/-- Balance factor stored at the root (0 for the empty tree). -/
def rootFactor : BTree α → Int
  | .nil => 0
  | .node _ _ _ f _ => f

/-- Number of nodes currently marked hidden. -/
def hiddenCount : BTree α → Nat
  | .nil => 0
  | .node l _ h _ r => hiddenCount l + hiddenCount r + (if h then 1 else 0)

/-- Payload of the left child of the root, if any (`bitree_left` +
`bistree_data`). -/
def leftChildData : BTree α → Option α
  | .node (.node _ d _ _ _) _ _ _ _ => some d
  | _ => none

/-- Payload of the right child of the root, if any (`bitree_right` +
`bistree_data`). -/
def rightChildData : BTree α → Option α
  | .node _ _ _ _ (.node _ d _ _ _) => some d
  | _ => none

end BTree

/-! ## Rotations (`bistree.c`, `_rotate_left` / `_rotate_right`) -/

/-- New factor of the old root after an LR rotation, from the
grandchild's factor (the `switch` in `_rotate_left`; the `default`
branch leaves the factor unchanged). -/
def lrNodeFactor (gf f : Int) : Int :=
  if gf = AVL_LEFT_HEAVY then AVL_RIGHT_HEAVY
  else if gf = AVL_BALANCED then AVL_BALANCED
  else if gf = AVL_RIGHT_HEAVY then AVL_BALANCED
  else f

/-- New factor of the left child after an LR rotation, from the
grandchild's factor. -/
def lrLeftFactor (gf lf : Int) : Int :=
  if gf = AVL_LEFT_HEAVY then AVL_BALANCED
  else if gf = AVL_BALANCED then AVL_BALANCED
  else if gf = AVL_RIGHT_HEAVY then AVL_LEFT_HEAVY
  else lf

/-- New factor of the old root after an RL rotation (the `switch` in
`_rotate_right`). -/
def rlNodeFactor (gf f : Int) : Int :=
  if gf = AVL_LEFT_HEAVY then AVL_BALANCED
  else if gf = AVL_BALANCED then AVL_BALANCED
  else if gf = AVL_RIGHT_HEAVY then AVL_LEFT_HEAVY
  else f

/-- New factor of the right child after an RL rotation. -/
def rlRightFactor (gf rf : Int) : Int :=
  if gf = AVL_LEFT_HEAVY then AVL_RIGHT_HEAVY
  else if gf = AVL_BALANCED then AVL_BALANCED
  else if gf = AVL_RIGHT_HEAVY then AVL_BALANCED
  else rf

/-- `_rotate_left`: LL rotation when the left child is left-heavy,
otherwise LR rotation through the grandchild.  The two fall-through
cases (NULL left child, or NULL grandchild in the LR branch) would
dereference NULL in C; they are unreachable under the AVL invariant and
modelled as the identity. -/
def rotate_left : BTree α → BTree α
  | .node (.node ll ld lh lf lr) d h f r =>
    if lf = AVL_LEFT_HEAVY then
      .node ll ld lh AVL_BALANCED (.node lr d h AVL_BALANCED r)
    else
      match lr with
      | .node gl gd gh gf gr =>
        .node (.node ll ld lh (lrLeftFactor gf lf) gl) gd gh AVL_BALANCED
          (.node gr d h (lrNodeFactor gf f) r)
      | .nil => .node (.node ll ld lh lf .nil) d h f r
  | t => t

/-- `_rotate_right`: RR rotation when the right child is right-heavy,
otherwise RL rotation through the grandchild (mirror of
`rotate_left`). -/
def rotate_right : BTree α → BTree α
  | .node l d h f (.node rl rd rh rf rr) =>
    if rf = AVL_RIGHT_HEAVY then
      .node (.node l d h AVL_BALANCED rl) rd rh AVL_BALANCED rr
    else
      match rl with
      | .node gl gd gh gf gr =>
        .node (.node l d h (rlNodeFactor gf f) gl) gd gh AVL_BALANCED
          (.node gr rd rh (rlRightFactor gf rf) rr)
      | .nil => .node l d h f (.node .nil rd rh rf rr)
  | t => t

/-! ## Insertion (`bistree.c`, `_insert` / `bistree_insert`) -/

/-- The `switch` performed in `_insert` after the left subtree grew
(`!(*balanced)` after a descent to the left): rotate when already
left-heavy, tilt when balanced, absorb when right-heavy.  Returns the
adjusted node and the new value of `*balanced` (which was `false` on
entry to the switch). -/
def rebalLeftGrowth (l : BTree α) (d : α) (h : Bool) (f : Int) (r : BTree α) :
    BTree α × Bool :=
  if f = AVL_LEFT_HEAVY then (rotate_left (.node l d h f r), true)
  else if f = AVL_BALANCED then (.node l d h AVL_LEFT_HEAVY r, false)
  else if f = AVL_RIGHT_HEAVY then (.node l d h AVL_BALANCED r, true)
  else (.node l d h f r, false)

/-- The `switch` performed in `_insert` after the right subtree grew. -/
def rebalRightGrowth (l : BTree α) (d : α) (h : Bool) (f : Int) (r : BTree α) :
    BTree α × Bool :=
  if f = AVL_LEFT_HEAVY then (.node l d h AVL_BALANCED r, true)
  else if f = AVL_BALANCED then (.node l d h AVL_RIGHT_HEAVY r, false)
  else if f = AVL_RIGHT_HEAVY then (rotate_right (.node l d h f r), true)
  else (.node l d h f r, false)

/--
`_insert`.  Returns the updated subtree, the value of `*balanced` on
return, and the return value (0 = inserted/replaced, 1 = duplicate of a
visible node; -1 alloc failure is not modelled).

In the C code `*balanced` is `false` at every entry (it is initialised
to `false` by `bistree_insert` and only written during the unwind), so
the flag is modelled as an output only.  The C code checks
`bitree_is_eob` on a child before recursing and creates the fresh leaf
inline; recursing into the NULL child yields the identical result
(fresh balanced visible leaf, `*balanced` untouched i.e. still `false`,
return 0), so the model uses the uniform recursion.
-/
def insAux (cmp : α → α → Int) (x : α) : BTree α → BTree α × Bool × Int
  | .nil => (.node .nil x false AVL_BALANCED .nil, false, 0)
  | .node l d h f r =>
    let cmpval := cmp x d
    if cmpval < 0 then
      let res := insAux cmp x l
      if res.2.2 ≠ 0 then (.node res.1 d h f r, res.2.1, res.2.2)
      else if res.2.1 then (.node res.1 d h f r, res.2.1, 0)
      else ((rebalLeftGrowth res.1 d h f r).1, (rebalLeftGrowth res.1 d h f r).2, 0)
    else if cmpval > 0 then
      let res := insAux cmp x r
      if res.2.2 ≠ 0 then (.node l d h f res.1, res.2.1, res.2.2)
      else if res.2.1 then (.node l d h f res.1, res.2.1, 0)
      else ((rebalRightGrowth l d h f res.1).1, (rebalRightGrowth l d h f res.1).2, 0)
    else
      if h = false then (.node l d h f r, false, 1)
      else (.node l x false f r, true, 0)

/-- `bistree_insert`: run `_insert` from the root with `balanced =
false`; result tree and status. -/
def bistree_insert (cmp : α → α → Int) (t : BTree α) (x : α) : BTree α × Int :=
  ((insAux cmp x t).1, (insAux cmp x t).2.2)

/-- Repeated `bistree_insert` starting from the empty tree produced by
`bistree_init` (which only records the comparator). -/
def insertList (cmp : α → α → Int) (xs : List α) : BTree α :=
  xs.foldl (fun t x => (insAux cmp x t).1) .nil

/-! ## Lazy removal and lookup (`_hide`, `_lookup`) -/

/-- `_hide`: descend by the comparator; on an exact match set
`is_hidden = true` and return 0; on falling off the tree return -1.
`bistree_remove` is exactly this, started at the root. -/
def hideAux (cmp : α → α → Int) (x : α) : BTree α → BTree α × Int
  | .nil => (.nil, -1)
  | .node l d h f r =>
    let cmpval := cmp x d
    if cmpval < 0 then
      ((.node (hideAux cmp x l).1 d h f r : BTree α), (hideAux cmp x l).2)
    else if cmpval > 0 then
      ((.node l d h f (hideAux cmp x r).1 : BTree α), (hideAux cmp x r).2)
    else (.node l d true f r, 0)

/-- `bistree_remove`. -/
def bistree_remove (cmp : α → α → Int) (t : BTree α) (x : α) : BTree α × Int :=
  hideAux cmp x t

/-- `_lookup` / `bistree_lookup`: `some` of the stored payload when a
visible match is found (return 0 and `*data` set), `none` when the key
is absent or the matching node is hidden (return -1). -/
def lookupAux (cmp : α → α → Int) (x : α) : BTree α → Option α
  | .nil => none
  | .node l d h _ r =>
    let cmpval := cmp x d
    if cmpval < 0 then lookupAux cmp x l
    else if cmpval > 0 then lookupAux cmp x r
    else if h = false then some d else none

/-- Whether `_hide`'s search path meets a node comparing equal to `x`
(hidden or not); `_hide` returns 0 exactly in this case. -/
def hasMatch (cmp : α → α → Int) (x : α) : BTree α → Bool
  | .nil => false
  | .node l d _ _ r =>
    let cmpval := cmp x d
    if cmpval < 0 then hasMatch cmp x l
    else if cmpval > 0 then hasMatch cmp x r
    else true

/-! ## Invariants -/

/-- `p` holds for every payload in the tree, hidden nodes included. -/
def Forall (p : α → Prop) : BTree α → Prop
  | .nil => True
  | .node l d _ _ r => Forall p l ∧ p d ∧ Forall p r

/-- The AVL invariant of the spec: at every node the stored balance
factor equals height(left) - height(right) and lies in {-1, 0, +1}. -/
def Avl : BTree α → Prop
  | .nil => True
  | .node l _ _ f r =>
    Avl l ∧ Avl r ∧ f = (BTree.hgt l : Int) - (BTree.hgt r : Int) ∧
      (f = -1 ∨ f = 0 ∨ f = 1)

/-- The BST invariant of the spec: every node's payload compares
greater than all payloads in its left subtree and less than all
payloads in its right subtree, hidden nodes included. -/
def Bst (cmp : α → α → Int) : BTree α → Prop
  | .nil => True
  | .node l d _ _ r =>
    Bst cmp l ∧ Bst cmp r ∧
      Forall (fun y => cmp d y > 0) l ∧ Forall (fun y => cmp d y < 0) r

/-- Relates a tree to a copy in which some hidden flags may have been
turned on (never off) and nothing else — shape, payloads and balance
factors identical. -/
def OnlyFlagsSet : BTree α → BTree α → Prop
  | .nil, .nil => True
  | .node l d h f r, .node l2 d2 h2 f2 r2 =>
    OnlyFlagsSet l l2 ∧ d = d2 ∧ f = f2 ∧
      (h = h2 ∨ (h = false ∧ h2 = true)) ∧ OnlyFlagsSet r r2
  | _, _ => False

instance instDecidableForall {p : α → Prop} [DecidablePred p] :
    (t : BTree α) → Decidable (Forall p t)
  | .nil => .isTrue trivial
  | .node l _ _ _ r =>
    have : Decidable (Forall p l) := instDecidableForall l
    have : Decidable (Forall p r) := instDecidableForall r
    inferInstanceAs (Decidable (_ ∧ _ ∧ _))

instance instDecidableAvl : (t : BTree α) → Decidable (Avl t)
  | .nil => .isTrue trivial
  | .node l _ _ _ r =>
    have : Decidable (Avl l) := instDecidableAvl l
    have : Decidable (Avl r) := instDecidableAvl r
    inferInstanceAs (Decidable (_ ∧ _ ∧ _ ∧ _))

instance instDecidableBst {cmp : α → α → Int} :
    (t : BTree α) → Decidable (Bst cmp t)
  | .nil => .isTrue trivial
  | .node l _ _ _ r =>
    have : Decidable (Bst cmp l) := instDecidableBst l
    have : Decidable (Bst cmp r) := instDecidableBst r
    inferInstanceAs (Decidable (_ ∧ _ ∧ _ ∧ _))

instance instDecidableOnlyFlagsSet [DecidableEq α] :
    (t t2 : BTree α) → Decidable (OnlyFlagsSet t t2)
  | .nil, .nil => .isTrue trivial
  | .node l _ _ _ r, .node l2 _ _ _ r2 =>
    have : Decidable (OnlyFlagsSet l l2) := instDecidableOnlyFlagsSet l l2
    have : Decidable (OnlyFlagsSet r r2) := instDecidableOnlyFlagsSet r r2
    inferInstanceAs (Decidable (_ ∧ _ ∧ _ ∧ _ ∧ _))
  | .nil, .node _ _ _ _ _ => .isFalse (fun hf => hf)
  | .node _ _ _ _ _, .nil => .isFalse (fun hf => hf)

/-! ## Morse codec constants (`morse.h`) -/

def MORSE_MAX_NODES : Nat := 45

def MORSE_NO_FLAGS : Nat := 0

def MORSE_USE_SEPARATORS : Nat := 1

def MORSE_USE_PROSIGNS : Nat := 2

def MORSE_MESSAGE_MAX_LENGTH : Nat := 500

def MORSE_DIT : List Char := ['.']

def MORSE_DAH : List Char := ['-']

def MORSE_SEP : List Char := [' ']

def MORSE_CHAR_SEPARATOR : List Char := [' ', ' ']

def MORSE_WORD_SEPARATOR : List Char := [' ', ' ', ' ', ' ', ' ', ' ']

/-- Priority order of the node payloads (`MORSE_WEIGHTED_NODES`). -/
def MORSE_WEIGHTED_NODES : List Char :=
  "5H4SV3IFU[2ELR+]APWJ1~6B=D/XNCKYT7ZGQM8(O9)0".toList

def MORSE_PROSIGN_CT : List Char := ['C', 'T']

def MORSE_PROSIGN_SK : List Char := ['S', 'K']

/-- Flag test `flags & MORSE_USE_SEPARATORS`. -/
def sepFlag (flags : Nat) : Bool := (flags &&& MORSE_USE_SEPARATORS) != 0

/-- Flag test `flags & MORSE_USE_PROSIGNS`. -/
def prosFlag (flags : Nat) : Bool := (flags &&& MORSE_USE_PROSIGNS) != 0

/-! ## Character classification (`ctype.h`, C locale) -/

/-- C `toupper` in the C locale: map `'a'..'z'` (code points 97..122)
to `'A'..'Z'`, leave everything else alone. -/
def c_toupper (c : Char) : Char :=
  if 97 ≤ c.toNat ∧ c.toNat ≤ 122 then Char.ofNat (c.toNat - 32) else c

/-- C `tolower` in the C locale: map `'A'..'Z'` (code points 65..90)
to `'a'..'z'`, leave everything else alone. -/
def c_tolower (c : Char) : Char :=
  if 65 ≤ c.toNat ∧ c.toNat ≤ 90 then Char.ofNat (c.toNat + 32) else c

/-- C `isspace` in the C locale: space, `\t`, `\n`, `\v`, `\f`, `\r`. -/
def isspaceC (c : Char) : Bool :=
  c == ' ' || c == '\t' || c == '\n' || c.toNat == 11 || c.toNat == 12 ||
    c.toNat == 13

/-! ## The codec comparator (`s_compare`) -/

/--
Position of `c` in `MORSE_WEIGHTED_NODES`, as computed by
`strchr(MORSE_WEIGHTED_NODES, c) - MORSE_WEIGHTED_NODES`.

`strchr` finds `'\0'` at the terminator, index 44 = `List.indexOf`'s
not-found value, so the model agrees there.  For any other absent
character `strchr` returns NULL and the C subtraction yields an
unspecified value that does not depend on the character; `indexOf`'s
constant 44 plays that role (no caller compares an absent non-NUL
character against a present one: the tree holds only characters of the
table and `morse_encode` filters by `strchr` first).
-/
def strchr_pos (c : Char) : Int := (MORSE_WEIGHTED_NODES.indexOf c : Int)

/-- `s_compare`: order two characters by the position of their
uppercased forms in `MORSE_WEIGHTED_NODES`. -/
def s_compare (key1 key2 : Char) : Int :=
  let pos1 := strchr_pos (c_toupper key1)
  let pos2 := strchr_pos (c_toupper key2)
  if pos1 > pos2 then 1 else if pos1 < pos2 then -1 else 0

/-! ## Building the tree (`s_morse_generate_nodes`, `morse_init`) -/

/-- The canonical insertion sequence.  In C this initialises a
`char[45]` buffer (`MORSE_MAX_NODES` slots); the 45th slot holds the
terminating NUL, which the loop skips (`if (morse_nodes[i] == '\0')
continue;`), so 44 characters are inserted. -/
def morse_nodes : List Char :=
  "~ETIAMNSURWDKGOHVFLPJBXYCZQ()543[2]+16=/7890".toList

/-- `morse_init`: `bistree_init(s_compare, free)` followed by
`s_morse_generate_nodes`, which inserts the characters of
`morse_nodes` in order (a failed insert only frees the duplicate
payload and changes nothing). -/
def morse_init : BTree Char :=
  morse_nodes.foldl (fun t c => (insAux s_compare c t).1) .nil

/-! ## Character-level encode and decode -/

/--
`s_morse_encode_char`: descend from `node`, appending a dit (plus a
separator space when `use_separators`) before going left and a dah
before going right; succeed with the accumulated code on reaching a
visible node comparing equal, fail (-1) on end-of-branch or on a hidden
match.  The C variant appends into the caller's buffer as it descends
and leaves the partial code there on failure; `morse_encode` aborts the
whole message in that case, so only the success output and the status
are observable and the model returns `Option`.
-/
def s_morse_encode_char (t : BTree Char) (data : Char) (use_separators : Bool) :
    Option (List Char) :=
  match t with
  | .nil => none
  | .node l d h _ r =>
    let cmpval := s_compare data d
    if cmpval < 0 then
      (s_morse_encode_char l data use_separators).map
        (fun rest => MORSE_DIT ++ (if use_separators then MORSE_SEP else []) ++ rest)
    else if cmpval > 0 then
      (s_morse_encode_char r data use_separators).map
        (fun rest => MORSE_DAH ++ (if use_separators then MORSE_SEP else []) ++ rest)
    else
      if h = false then some [] else none

/--
`s_morse_decode_char`: walk the tree from the root, left on each dit,
right on each dah, skipping separator spaces inside the token;
fail on any other character, on walking past an end of branch, or if
the final node is hidden; otherwise return the final node's payload.
-/
def s_morse_decode_char (t : BTree Char) : List Char → Option Char
  | [] =>
    match t with
    | .nil => none
    | .node _ d h _ _ => if h then none else some d
  | c :: cs =>
    match t with
    | .nil => none
    | .node l d h f r =>
      if c = ' ' then s_morse_decode_char (.node l d h f r) cs
      else if c = '.' then s_morse_decode_char l cs
      else if c = '-' then s_morse_decode_char r cs
      else none

/-! ## Message-level encode (`morse_encode`) -/

/-- The test `src[i + 1] == ' ' || src[i + 1] == '\0'` used by
`morse_encode` to decide whether the inter-character separator is
suppressed after an encoded character. -/
def nextIsGap : List Char → Bool
  | [] => true
  | c2 :: _ => c2 == ' '

/-- The transmission loop of `morse_encode` (the `for` over `src`):
filler characters are skipped, a space becomes a word separator when
separators are enabled, characters found in `MORSE_WEIGHTED_NODES` by
`strchr` (after `toupper`) are encoded — aborting the message on a
per-character failure — and followed by the inter-character separator
when the next character exists and is not a space; everything else is
ignored. -/
def encodeLoop (t : BTree Char) (sep : Bool) : List Char → Option (List Char)
  | [] => some []
  | c :: rest =>
    if c = '~' ∨ c = '(' ∨ c = ')' ∨ c = '[' ∨ c = ']' then
      encodeLoop t sep rest
    else if sep ∧ c = ' ' then
      (encodeLoop t sep rest).map (fun out => MORSE_WORD_SEPARATOR ++ out)
    else if (MORSE_WEIGHTED_NODES.contains (c_toupper c)) = true then
      match s_morse_encode_char t c sep with
      | none => none
      | some code =>
        let charSep :=
          if sep ∧ nextIsGap rest = false then MORSE_CHAR_SEPARATOR else []
        (encodeLoop t sep rest).map (fun out => code ++ charSep ++ out)
    else
      encodeLoop t sep rest

/-- Encoding of a prosign: its characters back to back, each through
`s_morse_encode_char`, aborting on the first failure (the inner `for`
loops over `MORSE_PROSIGN_CT` / `MORSE_PROSIGN_SK`). -/
def encodeProsign (t : BTree Char) (sep : Bool) : List Char → Option (List Char)
  | [] => some []
  | c :: rest =>
    match s_morse_encode_char t c sep, encodeProsign t sep rest with
    | some code, some out => some (code ++ out)
    | _, _ => none

/-- `morse_encode`: optional `<CT>` prosign (followed by a word
separator when separators are enabled), the encoded message, and the
optional `<SK>` prosign (preceded by a word separator when separators
are enabled).  `none` models the -1 return; NULL arguments are not
representable. -/
def morse_encode (t : BTree Char) (src : List Char) (flags : Nat) :
    Option (List Char) :=
  let sep := sepFlag flags
  match (if prosFlag flags then encodeProsign t sep MORSE_PROSIGN_CT else some []) with
  | none => none
  | some pre =>
    match encodeLoop t sep src with
    | none => none
    | some body =>
      match (if prosFlag flags then encodeProsign t sep MORSE_PROSIGN_SK else some []) with
      | none => none
      | some post =>
        some ((if prosFlag flags then pre ++ (if sep then MORSE_WORD_SEPARATOR else []) else []) ++
          body ++
          (if prosFlag flags then (if sep then MORSE_WORD_SEPARATOR else []) ++ post else []))

/-! ## Message-level decode (`morse_decode`) -/

/-- Finalise the current token: when it is nonempty, decode it and
append the decoded character on success, drop it on failure. -/
def finTok (t : BTree Char) (token out : List Char) : List Char :=
  if token = [] then out
  else
    match s_morse_decode_char t token with
    | some c => out ++ [c]
    | none => out

/-- Length of the run of characters equal to `c` at the head. -/
def countRun (c : Char) : List Char → Nat
  | [] => 0
  | a :: rest => if a = c then countRun c rest + 1 else 0

/--
The `while` loop of `morse_decode`.  It stops when the input is
exhausted or `out` has reached `MORSE_MESSAGE_MAX_LENGTH` characters.
In separator mode a word-separator prefix finalises the token and
appends a space, and a character-separator prefix finalises the token;
otherwise a run of spaces finalises the token and counts as a word gap
when at least 2 long.  A dit, dah or space is accumulated into the
token (which is dropped wholesale if it would exceed the token buffer);
any other character is ignored.  Returns the final token and output.

The recursion is driven structurally by `fuel`; every iteration of the
C loop advances `i` by at least one, so calling with
`fuel = src.length` (as `morse_decode` does) never exhausts the fuel
before the loop condition `i < src_len` fails.
-/
def decodeLoop (t : BTree Char) (sep : Bool) :
    Nat → List Char → List Char → List Char → List Char × List Char
  | _, [], token, out => (token, out)
  | 0, _, token, out => (token, out)
  | fuel + 1, src, token, out =>
    if out.length ≥ MORSE_MESSAGE_MAX_LENGTH then (token, out)
    else if sep ∧ MORSE_WORD_SEPARATOR.isPrefixOf src then
      decodeLoop t sep fuel (src.drop MORSE_WORD_SEPARATOR.length) []
        (finTok t token out ++ [' '])
    else if sep ∧ MORSE_CHAR_SEPARATOR.isPrefixOf src then
      decodeLoop t sep fuel (src.drop MORSE_CHAR_SEPARATOR.length) []
        (finTok t token out)
    else if ¬sep ∧ src.head? = some ' ' then
      decodeLoop t sep fuel (src.drop (countRun ' ' src)) []
        (if 2 ≤ countRun ' ' src then finTok t token out ++ [' ']
         else finTok t token out)
    else
      match src with
      | [] => (token, out)
      | c :: rest =>
        if c = '.' ∨ c = '-' ∨ c = ' ' then
          if token.length < MORSE_MESSAGE_MAX_LENGTH then
            decodeLoop t sep fuel rest (token ++ [c]) out
          else
            decodeLoop t sep fuel rest [] out
        else
          decodeLoop t sep fuel rest token out

/-- `s_trim`: strip leading and trailing `isspace` characters (the C
routine does this in place; all-space input becomes empty). -/
def s_trim (s : List Char) : List Char :=
  ((s.dropWhile isspaceC).reverse.dropWhile isspaceC).reverse

/-- `morse_decode`: run the decode loop, process the final token when
there is room, NUL-terminate and trim.  First component is the return
value — after the NULL-argument guard (not representable here) the
function always returns 0. -/
def morse_decode (t : BTree Char) (src : List Char) (flags : Nat) :
    Int × List Char :=
  let sep := sepFlag flags
  let st := decodeLoop t sep src.length src [] []
  let out2 :=
    if st.1 ≠ [] ∧ st.2.length < MORSE_MESSAGE_MAX_LENGTH then
      match s_morse_decode_char t st.1 with
      | some c => st.2 ++ [c]
      | none => st.2
    else st.2
  (0, s_trim out2)

/-! ## Concrete instances used to exercise the generic theorems -/

/-- A concrete strict total-order comparator on `Fin 4`, used to
instantiate the generic tree theorems. -/
def finCmp (a b : Fin 4) : Int :=
  if (a : Nat) < (b : Nat) then -1 else if (b : Nat) < (a : Nat) then 1 else 0

/-- A small tree built by the code's own insertion routine. -/
def finTree : BTree (Fin 4) := insertList finCmp [2, 1, 3]

/-- The codec tree with the node `'E'` hidden by `bistree_remove`. -/
def morseTreeHiddenE : BTree Char := (bistree_remove s_compare morse_init 'E').1

/-! ## Lemmas: heights and rotations -/

theorem hgt_eq_zero_iff (t : BTree α) : BTree.hgt t = 0 ↔ t = BTree.nil := by
  cases t <;> simp [BTree.hgt]

/-- `_rotate_left` called on a node whose left subtree has just grown
to two more than the right (and is itself strictly heavy, as the
insertion algorithm guarantees) produces a correctly annotated subtree
of the pre-growth height. -/
theorem rotate_left_spec {α : Type} (l2 : BTree α) (d : α) (hid : Bool) (f : Int)
    (r : BTree α) (hl2 : Avl l2) (hr : Avl r) (hh : l2.hgt = r.hgt + 2)
    (hnz : l2.rootFactor ≠ 0) :
    Avl (rotate_left (.node l2 d hid f r)) ∧
      (rotate_left (.node l2 d hid f r)).hgt = r.hgt + 2 := by
  match l2 with
  | .nil => exact absurd hh (by simp [BTree.hgt])
  | .node ll ld lh lf lr =>
    obtain ⟨hall, halr, hlf, hlfr⟩ := hl2
    simp only [BTree.rootFactor] at hnz
    simp only [BTree.hgt] at hh
    rcases hlfr with h1 | h1 | h1
    · -- lf = -1 = AVL_RIGHT_HEAVY: LR rotation through the grandchild
      subst h1
      match lr, halr with
      | .nil, _ =>
        exfalso
        simp only [BTree.hgt] at hlf hh
        omega
      | .node gl gd gh gf gr, ⟨hagl, hagr, hgf, hgfr⟩ =>
        simp only [BTree.hgt] at hlf hh hgf
        rcases hgfr with h2 | h2 | h2 <;> subst h2 <;>
          simp [rotate_left, Avl, BTree.hgt, lrLeftFactor, lrNodeFactor,
            AVL_LEFT_HEAVY, AVL_BALANCED, AVL_RIGHT_HEAVY, hall, hagl, hagr, hr] <;>
          omega
    · exact absurd h1 hnz
    · -- lf = 1 = AVL_LEFT_HEAVY: LL rotation
      subst h1
      simp [rotate_left, Avl, BTree.hgt, AVL_LEFT_HEAVY, AVL_BALANCED,
        hall, halr, hr]
      omega

/-- Mirror of `rotate_left_spec` for `_rotate_right`. -/
theorem rotate_right_spec {α : Type} (l : BTree α) (d : α) (hid : Bool) (f : Int)
    (r2 : BTree α) (hl : Avl l) (hr2 : Avl r2) (hh : r2.hgt = l.hgt + 2)
    (hnz : r2.rootFactor ≠ 0) :
    Avl (rotate_right (.node l d hid f r2)) ∧
      (rotate_right (.node l d hid f r2)).hgt = l.hgt + 2 := by
  match r2 with
  | .nil => exact absurd hh (by simp [BTree.hgt])
  | .node rl rd rh rf rr =>
    obtain ⟨harl, harr, hrf, hrfr⟩ := hr2
    simp only [BTree.rootFactor] at hnz
    simp only [BTree.hgt] at hh
    rcases hrfr with h1 | h1 | h1
    · -- rf = -1 = AVL_RIGHT_HEAVY: RR rotation
      subst h1
      simp [rotate_right, Avl, BTree.hgt, AVL_RIGHT_HEAVY, AVL_BALANCED,
        hl, harl, harr]
      omega
    · exact absurd h1 hnz
    · -- rf = 1 = AVL_LEFT_HEAVY: RL rotation through the grandchild
      subst h1
      match rl, harl with
      | .nil, _ =>
        exfalso
        simp only [BTree.hgt] at hrf hh
        omega
      | .node gl gd gh gf gr, ⟨hagl, hagr, hgf, hgfr⟩ =>
        simp only [BTree.hgt] at hrf hh hgf
        rcases hgfr with h2 | h2 | h2 <;> subst h2 <;>
          simp [rotate_right, Avl, BTree.hgt, rlNodeFactor, rlRightFactor,
            AVL_LEFT_HEAVY, AVL_BALANCED, AVL_RIGHT_HEAVY, hl, hagl, hagr, harr] <;>
          omega

/-- The post-left-growth `switch` of `_insert`: given that the left
subtree has grown from height `H` to `H + 1` and the node's factor `f`
still reflects the pre-growth heights, the adjusted node is correctly
annotated; a `false` balanced flag reports exactly a height growth,
together with a strict root factor. -/
theorem rebalLeftGrowth_spec {α : Type} (l2 : BTree α) (d : α) (hid : Bool)
    (f : Int) (r : BTree α) (H : Nat)
    (hl2 : Avl l2) (hr : Avl r) (hH : l2.hgt = H + 1)
    (hf : f = (H : Int) - r.hgt) (hrange : f = -1 ∨ f = 0 ∨ f = 1)
    (hnz : H ≠ 0 → l2.rootFactor ≠ 0) :
    Avl (rebalLeftGrowth l2 d hid f r).1 ∧
      ((rebalLeftGrowth l2 d hid f r).2 = true →
        (rebalLeftGrowth l2 d hid f r).1.hgt = max H r.hgt + 1) ∧
      ((rebalLeftGrowth l2 d hid f r).2 = false →
        (rebalLeftGrowth l2 d hid f r).1.hgt = max H r.hgt + 2 ∧
          (rebalLeftGrowth l2 d hid f r).1.rootFactor ≠ 0) := by
  rcases hrange with h1 | h1 | h1 <;> subst h1
  · -- f = -1: the growth is absorbed
    simp [rebalLeftGrowth, AVL_LEFT_HEAVY, AVL_BALANCED, AVL_RIGHT_HEAVY,
      Avl, BTree.hgt, BTree.rootFactor, hl2, hr]
    omega
  · -- f = 0: the node tilts left and keeps growing
    simp [rebalLeftGrowth, AVL_LEFT_HEAVY, AVL_BALANCED, AVL_RIGHT_HEAVY,
      Avl, BTree.hgt, BTree.rootFactor, hl2, hr]
    omega
  · -- f = 1: `_rotate_left` restores the pre-growth height
    have hry : l2.hgt = r.hgt + 2 := by omega
    have hHnz : H ≠ 0 := by omega
    obtain ⟨ha, hhgt⟩ := rotate_left_spec l2 d hid 1 r hl2 hr hry (hnz hHnz)
    simp [rebalLeftGrowth, AVL_LEFT_HEAVY, ha, hhgt]
    omega

/-- Mirror of `rebalLeftGrowth_spec` for a growth of the right
subtree. -/
theorem rebalRightGrowth_spec {α : Type} (l : BTree α) (d : α) (hid : Bool)
    (f : Int) (r2 : BTree α) (H : Nat)
    (hl : Avl l) (hr2 : Avl r2) (hH : r2.hgt = H + 1)
    (hf : f = (l.hgt : Int) - H) (hrange : f = -1 ∨ f = 0 ∨ f = 1)
    (hnz : H ≠ 0 → r2.rootFactor ≠ 0) :
    Avl (rebalRightGrowth l d hid f r2).1 ∧
      ((rebalRightGrowth l d hid f r2).2 = true →
        (rebalRightGrowth l d hid f r2).1.hgt = max l.hgt H + 1) ∧
      ((rebalRightGrowth l d hid f r2).2 = false →
        (rebalRightGrowth l d hid f r2).1.hgt = max l.hgt H + 2 ∧
          (rebalRightGrowth l d hid f r2).1.rootFactor ≠ 0) := by
  rcases hrange with h1 | h1 | h1 <;> subst h1
  · -- f = -1: `_rotate_right` restores the pre-growth height
    have hry : r2.hgt = l.hgt + 2 := by omega
    have hHnz : H ≠ 0 := by omega
    obtain ⟨ha, hhgt⟩ := rotate_right_spec l d hid (-1) r2 hl hr2 hry (hnz hHnz)
    simp [rebalRightGrowth, AVL_LEFT_HEAVY, AVL_BALANCED, AVL_RIGHT_HEAVY,
      ha, hhgt]
    omega
  · -- f = 0: the node tilts right and keeps growing
    simp [rebalRightGrowth, AVL_LEFT_HEAVY, AVL_BALANCED, AVL_RIGHT_HEAVY,
      Avl, BTree.hgt, BTree.rootFactor, hl, hr2]
    omega
  · -- f = 1: the growth is absorbed
    simp [rebalRightGrowth, AVL_LEFT_HEAVY, AVL_BALANCED, AVL_RIGHT_HEAVY,
      Avl, BTree.hgt, BTree.rootFactor, hl, hr2]
    omega

/--
Main balance lemma for `_insert`: on an AVL-correct tree the result is
AVL-correct; return value 1 (visible duplicate) leaves the tree
untouched with the balanced flag still `false`; return value 0 with
flag `true` preserves the height; return value 0 with flag `false`
reports a height growth by one and a strictly tilted root (for a
nonempty input), which is exactly what the parent's rebalancing switch
relies on.
-/
theorem insAux_spec {α : Type} (cmp : α → α → Int) (x : α) :
    ∀ (t : BTree α), Avl t →
      Avl (insAux cmp x t).1 ∧
      ((insAux cmp x t).2.2 = 0 ∨ (insAux cmp x t).2.2 = 1) ∧
      ((insAux cmp x t).2.2 = 1 → insAux cmp x t = (t, false, 1)) ∧
      ((insAux cmp x t).2.2 = 0 →
        ((insAux cmp x t).2.1 = true → (insAux cmp x t).1.hgt = t.hgt) ∧
        ((insAux cmp x t).2.1 = false →
          (insAux cmp x t).1.hgt = t.hgt + 1 ∧
            (t ≠ BTree.nil → (insAux cmp x t).1.rootFactor ≠ 0))) := by
  intro t
  induction t with
  | nil =>
    intro _
    simp [insAux, Avl, BTree.hgt, BTree.rootFactor, AVL_BALANCED]
  | node l d hid f r ihl ihr =>
    intro hAvl
    obtain ⟨hal, har, hf, hfr⟩ := hAvl
    by_cases hc : cmp x d < 0
    · -- descend to the left
      obtain ⟨hIa, hIrv01, hIrv1, hIrv0⟩ := ihl hal
      simp only [insAux, if_pos hc]
      rcases hIrv01 with hrv0 | hrv1
      · -- the recursive call inserted (return value 0)
        obtain ⟨hbt, hbf⟩ := hIrv0 hrv0
        by_cases hb : (insAux cmp x l).2.1 = true
        · -- subtree height preserved: no rebalancing
          simp only [hrv0, hb, ne_eq, not_true_eq_false, if_false,
            reduceIte]
          refine ⟨⟨hIa, har, ?_, hfr⟩, Or.inl (by simp), by simp, ?_⟩
          · rw [hbt hb]; exact hf
          · intro _
            refine ⟨fun _ => ?_, by simp [hb]⟩
            simp [BTree.hgt, hbt hb]
        · -- the left subtree grew: run the rebalancing switch
          have hbf2 : (insAux cmp x l).2.1 = false := by
            rcases hx : (insAux cmp x l).2.1 <;> simp_all
          obtain ⟨hgrow, hroot⟩ := hbf hbf2
          have hnz : l.hgt ≠ 0 → (insAux cmp x l).1.rootFactor ≠ 0 := by
            intro h0
            exact hroot (fun hnil => h0 (by simp [hnil, BTree.hgt]))
          obtain ⟨hRa, hRt, hRf⟩ :=
            rebalLeftGrowth_spec (insAux cmp x l).1 d hid f r l.hgt hIa har
              hgrow hf hfr hnz
          simp only [hrv0, hbf2, ne_eq, not_true_eq_false, if_false,
            Bool.false_eq_true, reduceIte]
          refine ⟨hRa, Or.inl (by simp), by simp, ?_⟩
          intro _
          constructor
          · intro hbt2
            rw [hRt hbt2]; simp [BTree.hgt]
          · intro hbf3
            obtain ⟨hh2, hr2⟩ := hRf hbf3
            exact ⟨by rw [hh2]; simp [BTree.hgt], fun _ => hr2⟩
      · -- the recursive call found a visible duplicate (return value 1)
        have heq := hIrv1 hrv1
        simp only [hrv1, heq, ne_eq, reduceIte]
        refine ⟨⟨hal, har, hf, hfr⟩, Or.inr (by simp), ?_, by simp⟩
        intro _
        simp [heq]
    · by_cases hc2 : cmp x d > 0
      · -- descend to the right
        obtain ⟨hIa, hIrv01, hIrv1, hIrv0⟩ := ihr har
        simp only [insAux, if_neg hc, if_pos hc2]
        rcases hIrv01 with hrv0 | hrv1
        · obtain ⟨hbt, hbf⟩ := hIrv0 hrv0
          by_cases hb : (insAux cmp x r).2.1 = true
          · simp only [hrv0, hb, ne_eq, not_true_eq_false, if_false,
              reduceIte]
            refine ⟨⟨hal, hIa, ?_, hfr⟩, Or.inl (by simp), by simp, ?_⟩
            · rw [hbt hb]; exact hf
            · intro _
              refine ⟨fun _ => ?_, by simp [hb]⟩
              simp [BTree.hgt, hbt hb]
          · have hbf2 : (insAux cmp x r).2.1 = false := by
              rcases hx : (insAux cmp x r).2.1 <;> simp_all
            obtain ⟨hgrow, hroot⟩ := hbf hbf2
            have hnz : r.hgt ≠ 0 → (insAux cmp x r).1.rootFactor ≠ 0 := by
              intro h0
              exact hroot (fun hnil => h0 (by simp [hnil, BTree.hgt]))
            obtain ⟨hRa, hRt, hRf⟩ :=
              rebalRightGrowth_spec l d hid f (insAux cmp x r).1 r.hgt hal hIa
                hgrow hf hfr hnz
            simp only [hrv0, hbf2, ne_eq, not_true_eq_false, if_false,
              Bool.false_eq_true, reduceIte]
            refine ⟨hRa, Or.inl (by simp), by simp, ?_⟩
            intro _
            constructor
            · intro hbt2
              rw [hRt hbt2]; simp [BTree.hgt]
            · intro hbf3
              obtain ⟨hh2, hr2⟩ := hRf hbf3
              exact ⟨by rw [hh2]; simp [BTree.hgt], fun _ => hr2⟩
        · have heq := hIrv1 hrv1
          simp only [hrv1, heq, ne_eq, reduceIte]
          refine ⟨⟨hal, har, hf, hfr⟩, Or.inr (by simp), ?_, by simp⟩
          intro _
          simp [heq]
      · -- equal keys
        simp only [insAux, if_neg hc, if_neg hc2]
        by_cases hhid : hid = false
        · -- visible duplicate: no mutation, return 1
          simp only [hhid, reduceIte]
          refine ⟨⟨hal, har, hf, hfr⟩, Or.inr (by simp), ?_, by simp⟩
          intro _
          simp [hhid]
        · -- hidden match: replace the payload in place, return 0
          simp only [hhid, reduceIte]
          refine ⟨⟨hal, har, hf, hfr⟩, Or.inl (by simp), by simp, ?_⟩
          intro _
          exact ⟨fun _ => by simp [BTree.hgt], by simp⟩

/-! ## Lemmas: BST order preservation -/

theorem Forall_imp_tree {p q : α → Prop} (hpq : ∀ a, p a → q a) :
    ∀ t, Forall p t → Forall q t := by
  intro t
  induction t with
  | nil => intro h; exact h
  | node l d hid f r ihl ihr =>
    intro h
    obtain ⟨h1, h2, h3⟩ := h
    exact ⟨ihl h1, hpq d h2, ihr h3⟩

theorem Forall_rotate_left {p : α → Prop} :
    ∀ t, Forall p t → Forall p (rotate_left t) := by
  intro t ht
  match t with
  | .nil => exact ht
  | .node .nil d hid f r => exact ht
  | .node (.node ll ld lh lf lr) d hid f r =>
    obtain ⟨⟨hll, hld, hlr⟩, hd, hr⟩ := ht
    simp only [rotate_left]
    by_cases h1 : lf = AVL_LEFT_HEAVY
    · simp only [h1, if_true]
      exact ⟨hll, hld, hlr, hd, hr⟩
    · simp only [h1, if_false]
      match lr, hlr with
      | .nil, _ => exact ⟨⟨hll, hld, trivial⟩, hd, hr⟩
      | .node gl gd gh gf gr, ⟨hgl, hgd, hgr⟩ =>
        exact ⟨⟨hll, hld, hgl⟩, hgd, hgr, hd, hr⟩

theorem Forall_rotate_right {p : α → Prop} :
    ∀ t, Forall p t → Forall p (rotate_right t) := by
  intro t ht
  match t with
  | .nil => exact ht
  | .node l d hid f .nil => exact ht
  | .node l d hid f (.node rl rd rh rf rr) =>
    obtain ⟨hl, hd, ⟨hrl, hrd, hrr⟩⟩ := ht
    simp only [rotate_right]
    by_cases h1 : rf = AVL_RIGHT_HEAVY
    · simp only [h1, if_true]
      exact ⟨⟨hl, hd, hrl⟩, hrd, hrr⟩
    · simp only [h1, if_false]
      match rl, hrl with
      | .nil, _ => exact ⟨hl, hd, trivial, hrd, hrr⟩
      | .node gl gd gh gf gr, ⟨hgl, hgd, hgr⟩ =>
        exact ⟨⟨hl, hd, hgl⟩, hgd, hgr, hrd, hrr⟩

theorem Forall_rebalLeftGrowth {p : α → Prop} (l : BTree α) (d : α) (hid : Bool)
    (f : Int) (r : BTree α) (hl : Forall p l) (hd : p d) (hr : Forall p r) :
    Forall p (rebalLeftGrowth l d hid f r).1 := by
  unfold rebalLeftGrowth
  split_ifs
  · exact Forall_rotate_left _ ⟨hl, hd, hr⟩
  all_goals exact ⟨hl, hd, hr⟩

theorem Forall_rebalRightGrowth {p : α → Prop} (l : BTree α) (d : α) (hid : Bool)
    (f : Int) (r : BTree α) (hl : Forall p l) (hd : p d) (hr : Forall p r) :
    Forall p (rebalRightGrowth l d hid f r).1 := by
  unfold rebalRightGrowth
  split_ifs
  · exact ⟨hl, hd, hr⟩
  · exact ⟨hl, hd, hr⟩
  · exact Forall_rotate_right _ ⟨hl, hd, hr⟩
  · exact ⟨hl, hd, hr⟩

theorem Forall_insAux {p : α → Prop} (cmp : α → α → Int) (x : α) (hx : p x) :
    ∀ t, Forall p t → Forall p (insAux cmp x t).1 := by
  intro t
  induction t with
  | nil => intro _; exact ⟨trivial, hx, trivial⟩
  | node l d hid f r ihl ihr =>
    intro h
    obtain ⟨hl, hd, hr⟩ := h
    simp only [insAux]
    by_cases hc : cmp x d < 0
    · simp only [if_pos hc]
      split
      · exact ⟨ihl hl, hd, hr⟩
      · split
        · exact ⟨ihl hl, hd, hr⟩
        · exact Forall_rebalLeftGrowth _ _ _ _ _ (ihl hl) hd hr
    · by_cases hc2 : cmp x d > 0
      · simp only [if_neg hc, if_pos hc2]
        split
        · exact ⟨hl, hd, ihr hr⟩
        · split
          · exact ⟨hl, hd, ihr hr⟩
          · exact Forall_rebalRightGrowth _ _ _ _ _ hl hd (ihr hr)
      · simp only [if_neg hc, if_neg hc2]
        split
        · exact ⟨hl, hd, hr⟩
        · exact ⟨hl, hx, hr⟩

theorem Bst_rotate_left (cmp : α → α → Int)
    (hasym : ∀ a b, cmp a b < 0 ↔ cmp b a > 0)
    (htrans : ∀ a b c, cmp a b < 0 → cmp b c < 0 → cmp a c < 0) :
    ∀ t, Bst cmp t → Bst cmp (rotate_left t) := by
  intro t ht
  match t with
  | .nil => exact ht
  | .node .nil d hid f r => exact ht
  | .node (.node ll ld lh lf lr) d hid f r =>
    obtain ⟨⟨hbll, hblr, hgll, hllr⟩, hbr, ⟨hfl1, hfl2, hfl3⟩, hfr⟩ := ht
    have hldd : cmp ld d < 0 := (hasym ld d).mpr hfl2
    simp only [rotate_left]
    by_cases h1 : lf = AVL_LEFT_HEAVY
    · simp only [h1, if_true]
      refine ⟨hbll, ⟨hblr, hbr, hfl3, hfr⟩, hgll, hllr, hldd, ?_⟩
      exact Forall_imp_tree (fun y hy => htrans ld d y hldd hy) r hfr
    · simp only [h1, if_false]
      match lr, hblr, hllr, hfl3 with
      | .nil, _, _, _ => exact ⟨⟨hbll, trivial, hgll, trivial⟩, hbr, ⟨hfl1, hfl2, trivial⟩, hfr⟩
      | .node gl gd gh gf gr, ⟨hbgl, hbgr, hggl, hggr⟩, ⟨hllra, hllrb, hllrc⟩,
          ⟨hfl3a, hfl3b, hfl3c⟩ =>
        have hgdld : cmp gd ld > 0 := (hasym ld gd).mp hllrb
        have hgdd : cmp gd d < 0 := (hasym gd d).mpr hfl3b
        refine ⟨⟨hbll, hbgl, hgll, hllra⟩, ⟨hbgr, hbr, hfl3c, hfr⟩, ?_, ?_⟩
        · refine ⟨?_, hgdld, hggl⟩
          exact Forall_imp_tree
            (fun y hy => (hasym y gd).mp (htrans y ld gd ((hasym y ld).mpr hy) hllrb))
            ll hgll
        · refine ⟨hggr, hgdd, ?_⟩
          exact Forall_imp_tree (fun y hy => htrans gd d y hgdd hy) r hfr

theorem Bst_rotate_right (cmp : α → α → Int)
    (hasym : ∀ a b, cmp a b < 0 ↔ cmp b a > 0)
    (htrans : ∀ a b c, cmp a b < 0 → cmp b c < 0 → cmp a c < 0) :
    ∀ t, Bst cmp t → Bst cmp (rotate_right t) := by
  intro t ht
  match t with
  | .nil => exact ht
  | .node l d hid f .nil => exact ht
  | .node l d hid f (.node rl rd rh rf rr) =>
    obtain ⟨hbl, ⟨hbrl, hbrr, hgrl, hrrr⟩, hfl, ⟨hfr1, hfr2, hfr3⟩⟩ := ht
    have hdrd : cmp d rd < 0 := hfr2
    simp only [rotate_right]
    by_cases h1 : rf = AVL_RIGHT_HEAVY
    · simp only [h1, if_true]
      refine ⟨⟨hbl, hbrl, hfl, hfr1⟩, hbrr, ?_, hrrr⟩
      refine ⟨?_, (hasym d rd).mp hdrd, hgrl⟩
      exact Forall_imp_tree
        (fun y hy => (hasym y rd).mp (htrans y d rd ((hasym y d).mpr hy) hdrd))
        l hfl
    · simp only [h1, if_false]
      match rl, hbrl, hgrl, hfr1 with
      | .nil, _, _, _ => exact ⟨hbl, ⟨trivial, hbrr, trivial, hrrr⟩, hfl, trivial, hfr2, hfr3⟩
      | .node gl gd gh gf gr, ⟨hbgl, hbgr, hggl, hggr⟩, ⟨hgrla, hgrlb, hgrlc⟩,
          ⟨hfr1a, hfr1b, hfr1c⟩ =>
        have hdgd : cmp d gd < 0 := hfr1b
        have hgdrd : cmp gd rd < 0 := (hasym gd rd).mpr hgrlb
        refine ⟨⟨hbl, hbgl, hfl, hfr1a⟩, ⟨hbgr, hbrr, hgrlc, hrrr⟩, ?_, ?_⟩
        · refine ⟨?_, (hasym d gd).mp hdgd, hggl⟩
          exact Forall_imp_tree
            (fun y hy => (hasym y gd).mp (htrans y d gd ((hasym y d).mpr hy) hdgd))
            l hfl
        · refine ⟨hggr, hgdrd, ?_⟩
          exact Forall_imp_tree (fun y hy => htrans gd rd y hgdrd hy) rr hrrr

theorem Bst_rebalLeftGrowth (cmp : α → α → Int)
    (hasym : ∀ a b, cmp a b < 0 ↔ cmp b a > 0)
    (htrans : ∀ a b c, cmp a b < 0 → cmp b c < 0 → cmp a c < 0)
    (l : BTree α) (d : α) (hid : Bool) (f : Int) (r : BTree α)
    (hbl : Bst cmp l) (hbr : Bst cmp r)
    (hfl : Forall (fun y => cmp d y > 0) l)
    (hfr : Forall (fun y => cmp d y < 0) r) :
    Bst cmp (rebalLeftGrowth l d hid f r).1 := by
  unfold rebalLeftGrowth
  split_ifs
  · exact Bst_rotate_left cmp hasym htrans _ ⟨hbl, hbr, hfl, hfr⟩
  all_goals exact ⟨hbl, hbr, hfl, hfr⟩

theorem Bst_rebalRightGrowth (cmp : α → α → Int)
    (hasym : ∀ a b, cmp a b < 0 ↔ cmp b a > 0)
    (htrans : ∀ a b c, cmp a b < 0 → cmp b c < 0 → cmp a c < 0)
    (l : BTree α) (d : α) (hid : Bool) (f : Int) (r : BTree α)
    (hbl : Bst cmp l) (hbr : Bst cmp r)
    (hfl : Forall (fun y => cmp d y > 0) l)
    (hfr : Forall (fun y => cmp d y < 0) r) :
    Bst cmp (rebalRightGrowth l d hid f r).1 := by
  unfold rebalRightGrowth
  split_ifs
  · exact ⟨hbl, hbr, hfl, hfr⟩
  · exact ⟨hbl, hbr, hfl, hfr⟩
  · exact Bst_rotate_right cmp hasym htrans _ ⟨hbl, hbr, hfl, hfr⟩
  · exact ⟨hbl, hbr, hfl, hfr⟩

theorem Bst_insAux (cmp : α → α → Int)
    (hasym : ∀ a b, cmp a b < 0 ↔ cmp b a > 0)
    (htrans : ∀ a b c, cmp a b < 0 → cmp b c < 0 → cmp a c < 0)
    (heq : ∀ a b, cmp a b = 0 → a = b) (x : α) :
    ∀ t, Bst cmp t → Bst cmp (insAux cmp x t).1 := by
  intro t
  induction t with
  | nil => intro _; exact ⟨trivial, trivial, trivial, trivial⟩
  | node l d hid f r ihl ihr =>
    intro hb
    obtain ⟨hbl, hbr, hfl, hfr⟩ := hb
    simp only [insAux]
    by_cases hc : cmp x d < 0
    · have hdx : cmp d x > 0 := (hasym x d).mp hc
      simp only [if_pos hc]
      split
      · exact ⟨ihl hbl, hbr, Forall_insAux cmp x hdx l hfl, hfr⟩
      · split
        · exact ⟨ihl hbl, hbr, Forall_insAux cmp x hdx l hfl, hfr⟩
        · exact Bst_rebalLeftGrowth cmp hasym htrans _ _ _ _ _ (ihl hbl) hbr
            (Forall_insAux cmp x hdx l hfl) hfr
    · by_cases hc2 : cmp x d > 0
      · have hdx : cmp d x < 0 := (hasym d x).mpr hc2
        simp only [if_neg hc, if_pos hc2]
        split
        · exact ⟨hbl, ihr hbr, hfl, Forall_insAux cmp x hdx r hfr⟩
        · split
          · exact ⟨hbl, ihr hbr, hfl, Forall_insAux cmp x hdx r hfr⟩
          · exact Bst_rebalRightGrowth cmp hasym htrans _ _ _ _ _ hbl (ihr hbr)
              hfl (Forall_insAux cmp x hdx r hfr)
      · have hxd : x = d := heq x d (by omega)
        subst hxd
        simp only [if_neg hc, if_neg hc2]
        split
        · exact ⟨hbl, hbr, hfl, hfr⟩
        · exact ⟨hbl, hbr, hfl, hfr⟩

theorem insertList_invariant (cmp : α → α → Int)
    (hasym : ∀ a b, cmp a b < 0 ↔ cmp b a > 0)
    (htrans : ∀ a b c, cmp a b < 0 → cmp b c < 0 → cmp a c < 0)
    (heq : ∀ a b, cmp a b = 0 → a = b) :
    ∀ (xs : List α) (t : BTree α), Avl t → Bst cmp t →
      Avl (xs.foldl (fun t x => (insAux cmp x t).1) t) ∧
        Bst cmp (xs.foldl (fun t x => (insAux cmp x t).1) t) := by
  intro xs
  induction xs with
  | nil => intro t ha hb; exact ⟨ha, hb⟩
  | cons y ys ih =>
    intro t ha hb
    simp only [List.foldl_cons]
    exact ih _ (insAux_spec cmp y t ha).1 (Bst_insAux cmp hasym htrans heq y t hb)

/-! ## Lemmas: lazy removal -/

theorem OnlyFlagsSet_refl : ∀ t : BTree α, OnlyFlagsSet t t := by
  intro t
  induction t with
  | nil => trivial
  | node l d hid f r ihl ihr => exact ⟨ihl, rfl, rfl, Or.inl rfl, ihr⟩

/-- Core frame lemma for `_hide` followed by `_insert` of an equal
payload: hiding a visible payload only turns one hidden flag on, and
re-inserting the payload afterwards yields exactly the original tree
(with the balanced flag set and status 0, so no ancestor is
rebalanced). -/
theorem hide_frame_reinsert (cmp : α → α → Int) (x : α)
    (heqx : ∀ b, cmp x b = 0 → x = b) :
    ∀ t : BTree α, (lookupAux cmp x t).isSome = true →
      OnlyFlagsSet t (hideAux cmp x t).1 ∧
      (hideAux cmp x t).1.hiddenCount = t.hiddenCount + 1 ∧
      (hideAux cmp x t).1.size = t.size ∧
      insAux cmp x (hideAux cmp x t).1 = (t, true, 0) := by
  intro t
  induction t with
  | nil => intro h; simp [lookupAux] at h
  | node l d hid f r ihl ihr =>
    intro hfound
    by_cases hc : cmp x d < 0
    · simp only [lookupAux, if_pos hc] at hfound
      obtain ⟨ho, hcnt, hsz, hins⟩ := ihl hfound
      simp only [hideAux, if_pos hc]
      refine ⟨⟨ho, rfl, rfl, Or.inl rfl, OnlyFlagsSet_refl r⟩, ?_, ?_, ?_⟩
      · simp only [BTree.hiddenCount, hcnt]; omega
      · simp only [BTree.size, hsz]
      · simp only [insAux, if_pos hc, hins]
        simp
    · by_cases hc2 : cmp x d > 0
      · simp only [lookupAux, if_neg hc, if_pos hc2] at hfound
        obtain ⟨ho, hcnt, hsz, hins⟩ := ihr hfound
        simp only [hideAux, if_neg hc, if_pos hc2]
        refine ⟨⟨OnlyFlagsSet_refl l, rfl, rfl, Or.inl rfl, ho⟩, ?_, ?_, ?_⟩
        · simp only [BTree.hiddenCount, hcnt]; omega
        · simp only [BTree.size, hsz]
        · simp only [insAux, if_neg hc, if_pos hc2, hins]
          simp
      · simp only [lookupAux, if_neg hc, if_neg hc2] at hfound
        have hhid : hid = false := by
          by_cases hx : hid = false
          · exact hx
          · simp [hx] at hfound
        subst hhid
        have hxd : x = d := heqx d (by omega)
        simp only [hideAux, if_neg hc, if_neg hc2]
        refine ⟨⟨OnlyFlagsSet_refl l, rfl, rfl, Or.inr ⟨rfl, rfl⟩,
          OnlyFlagsSet_refl r⟩, ?_, rfl, ?_⟩
        · simp [BTree.hiddenCount]
        · simp only [insAux, if_neg hc, if_neg hc2]
          simp [hxd]

/-- `_hide` returns 0 exactly when its search path meets a matching
node — hidden or not — and -1 otherwise. -/
theorem hideAux_status (cmp : α → α → Int) (x : α) :
    ∀ t : BTree α, (hideAux cmp x t).2 = if hasMatch cmp x t then 0 else -1 := by
  intro t
  induction t with
  | nil => simp [hideAux, hasMatch]
  | node l d hid f r ihl ihr =>
    simp only [hideAux, hasMatch]
    by_cases hc : cmp x d < 0
    · simp only [if_pos hc]; exact ihl
    · by_cases hc2 : cmp x d > 0
      · simp only [if_neg hc, if_pos hc2]; exact ihr
      · simp [if_neg hc, if_neg hc2]

/-! ## Lemmas: message-level encode failure analysis -/

/-- The only way the transmission loop of `morse_encode` fails is a
character of `src` that passes the `strchr` table check and whose tree
encoding fails. -/
theorem encodeLoop_none (t : BTree Char) (sep : Bool) :
    ∀ src : List Char, encodeLoop t sep src = none →
      ∃ c, c ∈ src ∧ (MORSE_WEIGHTED_NODES.contains (c_toupper c)) = true ∧
        s_morse_encode_char t c sep = none := by
  intro src
  induction src with
  | nil => intro h; simp [encodeLoop] at h
  | cons c rest ih =>
    intro h
    rw [encodeLoop] at h
    by_cases h1 : c = '~' ∨ c = '(' ∨ c = ')' ∨ c = '[' ∨ c = ']'
    · rw [if_pos h1] at h
      obtain ⟨c2, hm, htab, hn⟩ := ih h
      exact ⟨c2, List.mem_cons_of_mem _ hm, htab, hn⟩
    · rw [if_neg h1] at h
      by_cases h2 : sep = true ∧ c = ' '
      · rw [if_pos h2] at h
        rw [Option.map_eq_none'] at h
        obtain ⟨c2, hm, htab, hn⟩ := ih h
        exact ⟨c2, List.mem_cons_of_mem _ hm, htab, hn⟩
      · rw [if_neg h2] at h
        by_cases h3 : (MORSE_WEIGHTED_NODES.contains (c_toupper c)) = true
        · rw [if_pos h3] at h
          cases henc : s_morse_encode_char t c sep with
          | none => exact ⟨c, List.mem_cons_self c rest, h3, henc⟩
          | some code =>
            rw [henc] at h
            simp only [Option.map_eq_none'] at h
            obtain ⟨c2, hm, htab, hn⟩ := ih h
            exact ⟨c2, List.mem_cons_of_mem _ hm, htab, hn⟩
        · rw [if_neg h3] at h
          obtain ⟨c2, hm, htab, hn⟩ := ih h
          exact ⟨c2, List.mem_cons_of_mem _ hm, htab, hn⟩

/-- A prosign encodes unless one of its characters fails the tree
encoding. -/
theorem encodeProsign_none (t : BTree Char) (sep : Bool) :
    ∀ cs : List Char, encodeProsign t sep cs = none →
      ∃ c, c ∈ cs ∧ s_morse_encode_char t c sep = none := by
  intro cs
  induction cs with
  | nil => intro h; simp [encodeProsign] at h
  | cons c rest ih =>
    intro h
    rw [encodeProsign] at h
    cases henc : s_morse_encode_char t c sep with
    | none => exact ⟨c, List.mem_cons_self c rest, henc⟩
    | some code =>
      rw [henc] at h
      cases hrec : encodeProsign t sep rest with
      | none =>
        obtain ⟨c2, hm, hn⟩ := ih hrec
        exact ⟨c2, List.mem_cons_of_mem _ hm, hn⟩
      | some out => rw [hrec] at h; exact absurd h (by simp)

/-! ## Lemmas: case insensitivity of the comparator -/

/-- `Char.toNat` is a left inverse of `Char.ofNat` below the surrogate
range (all ASCII arithmetic of `toupper`/`tolower` stays there). -/
theorem toNat_ofNat_valid (n : Nat) (h : n < 55296) : (Char.ofNat n).toNat = n := by
  have hv : n.isValidChar := Or.inl h
  unfold Char.ofNat
  rw [dif_pos hv]
  rfl

theorem c_toupper_c_tolower (c : Char) : c_toupper (c_tolower c) = c_toupper c := by
  unfold c_toupper c_tolower
  by_cases h1 : 65 ≤ c.toNat ∧ c.toNat ≤ 90
  · have ht : (Char.ofNat (c.toNat + 32)).toNat = c.toNat + 32 :=
      toNat_ofNat_valid _ (by omega)
    rw [if_pos h1, if_pos (by rw [ht]; omega), ht, if_neg (by omega),
      show c.toNat + 32 - 32 = c.toNat by omega, Char.ofNat_toNat]
  · rw [if_neg h1]

theorem c_toupper_c_toupper (c : Char) : c_toupper (c_toupper c) = c_toupper c := by
  unfold c_toupper
  by_cases h1 : 97 ≤ c.toNat ∧ c.toNat ≤ 122
  · have ht : (Char.ofNat (c.toNat - 32)).toNat = c.toNat - 32 :=
      toNat_ofNat_valid _ (by omega)
    rw [if_pos h1, if_neg (by rw [ht]; omega)]
  · rw [if_neg h1, if_neg h1]

theorem s_compare_tolower_left (c1 c2 : Char) :
    s_compare (c_tolower c1) c2 = s_compare c1 c2 := by
  unfold s_compare strchr_pos
  rw [c_toupper_c_tolower]

theorem s_compare_toupper_left (c1 c2 : Char) :
    s_compare (c_toupper c1) c2 = s_compare c1 c2 := by
  unfold s_compare strchr_pos
  rw [c_toupper_c_toupper]

theorem s_compare_tolower_right (c1 c2 : Char) :
    s_compare c1 (c_tolower c2) = s_compare c1 c2 := by
  unfold s_compare strchr_pos
  rw [c_toupper_c_tolower]

theorem s_compare_toupper_right (c1 c2 : Char) :
    s_compare c1 (c_toupper c2) = s_compare c1 c2 := by
  unfold s_compare strchr_pos
  rw [c_toupper_c_toupper]

theorem s_morse_encode_char_tolower (c : Char) (sep : Bool) :
    ∀ t : BTree Char,
      s_morse_encode_char t (c_tolower c) sep = s_morse_encode_char t c sep := by
  intro t
  induction t with
  | nil => rfl
  | node l d hid f r ihl ihr =>
    simp only [s_morse_encode_char, s_compare_tolower_left, ihl, ihr]

theorem s_morse_encode_char_toupper (c : Char) (sep : Bool) :
    ∀ t : BTree Char,
      s_morse_encode_char t (c_toupper c) sep = s_morse_encode_char t c sep := by
  intro t
  induction t with
  | nil => rfl
  | node l d hid f r ihl ihr =>
    simp only [s_morse_encode_char, s_compare_toupper_left, ihl, ihr]

theorem lookupAux_tolower (c : Char) :
    ∀ t : BTree Char,
      lookupAux s_compare (c_tolower c) t = lookupAux s_compare c t := by
  intro t
  induction t with
  | nil => rfl
  | node l d hid f r ihl ihr =>
    simp only [lookupAux, s_compare_tolower_left, ihl, ihr]

theorem lookupAux_toupper (c : Char) :
    ∀ t : BTree Char,
      lookupAux s_compare (c_toupper c) t = lookupAux s_compare c t := by
  intro t
  induction t with
  | nil => rfl
  | node l d hid f r ihl ihr =>
    simp only [lookupAux, s_compare_toupper_left, ihl, ihr]

/-! ## Claim theorems -/

/-- C1 (code bug, failing input `"E "`): with separators enabled,
encoding the text `"E "` yields `"."` followed by seven spaces (the
symbol separator plus the word separator); decoding that yields
`"E ~"`, not the case-normalized filler-stripped trimmed original
`"E"`: the word separator's leftover space forms an all-space final
token which `s_morse_decode_char` resolves to the root placeholder
`'~'` — a node the header documents as unused — so the round-trip
property fails. -/
theorem morse_roundtrip_trailing_space_bug :
    morse_encode morse_init ['E', ' '] MORSE_USE_SEPARATORS =
      some ('.' :: List.replicate 7 ' ') ∧
    (morse_decode morse_init ('.' :: List.replicate 7 ' ')
      MORSE_USE_SEPARATORS).2 = ['E', ' ', '~'] ∧
    ['E', ' ', '~'] ≠ s_trim ['E', ' '] := by
  refine ⟨?_, ?_, ?_⟩ <;> decide

/-- C2: for every strict total-order comparator and every insertion
sequence (hence after each individual `bistree_insert`, by
instantiating with each prefix), the tree built from the empty tree of
`bistree_init` satisfies the AVL invariant — every node's balance
factor lies in {-1, 0, +1} and equals the height of its left subtree
minus the height of its right subtree — and the BST invariant — every
node's payload compares greater than all payloads in its left subtree
and less than all payloads in its right subtree, hidden nodes
included. -/
theorem bistree_insert_preserves_avl_and_bst {α : Type} (cmp : α → α → Int)
    (hasym : ∀ a b, cmp a b < 0 ↔ cmp b a > 0)
    (htrans : ∀ a b c, cmp a b < 0 → cmp b c < 0 → cmp a c < 0)
    (heq : ∀ a b, cmp a b = 0 → a = b)
    (xs : List α) :
    Avl (insertList cmp xs) ∧ Bst cmp (insertList cmp xs) :=
  insertList_invariant cmp hasym htrans heq xs .nil True.intro True.intro

/-- Witness for C2 at the concrete comparator `finCmp` and the
insertion sequence `[2, 0, 3, 1]`. -/
theorem bistree_insert_preserves_avl_and_bst_witness :
    (∀ a b : Fin 4, finCmp a b < 0 ↔ finCmp b a > 0) ∧
    (∀ a b c : Fin 4, finCmp a b < 0 → finCmp b c < 0 → finCmp a c < 0) ∧
    (∀ a b : Fin 4, finCmp a b = 0 → a = b) ∧
    (Avl (insertList finCmp [2, 0, 3, 1]) ∧
      Bst finCmp (insertList finCmp [2, 0, 3, 1])) :=
  ⟨by decide, by decide, by decide,
    bistree_insert_preserves_avl_and_bst finCmp (by decide) (by decide)
      (by decide) [2, 0, 3, 1]⟩

/-- C3 counterexample: on a one-node tree holding `'E'`, removing
`'E'` twice returns 0 (success) the second time as well — not the
claimed NotFound (-1): `_hide` re-marks an already-hidden matching node
and reports success. -/
theorem bistree_remove_rehide_returns_success :
    (bistree_remove s_compare (bistree_remove s_compare
      (bistree_insert s_compare .nil 'E').1 'E').1 'E').2 = 0 ∧
    (bistree_remove s_compare (bistree_remove s_compare
      (bistree_insert s_compare .nil 'E').1 'E').1 'E').2 ≠ -1 := by
  refine ⟨?_, ?_⟩ <;> decide

/-- C3 amended: `bistree_remove` returns NotFound (-1) exactly when no
node on the comparator's search path matches the payload; when a
matching node exists — already hidden or not — it (re-)marks it hidden
and returns 0. -/
theorem bistree_remove_status_characterization {α : Type} (cmp : α → α → Int)
    (x : α) (t : BTree α) :
    (bistree_remove cmp t x).2 = if hasMatch cmp x t then 0 else -1 :=
  hideAux_status cmp x t

/-- C4: hiding a payload that is present (visible) changes only that
node's hidden flag — shape, payloads, balance factors, node count and
all other hidden flags are unchanged (`OnlyFlagsSet` plus the hidden
count growing by exactly one) — and a subsequent `bistree_insert` of
the equal payload returns the tree to exactly its original state
(status 0, no new node, no rebalancing) with the payload visible to
lookup again. -/
theorem bistree_hide_frame_and_reinsert_restores {α : Type} (cmp : α → α → Int)
    (x : α) (heqx : ∀ b, cmp x b = 0 → x = b) (t : BTree α)
    (hfound : (lookupAux cmp x t).isSome = true) :
    OnlyFlagsSet t (bistree_remove cmp t x).1 ∧
    (bistree_remove cmp t x).1.hiddenCount = t.hiddenCount + 1 ∧
    (bistree_remove cmp t x).1.size = t.size ∧
    bistree_insert cmp (bistree_remove cmp t x).1 x = (t, 0) ∧
    (lookupAux cmp x (bistree_insert cmp (bistree_remove cmp t x).1 x).1).isSome
      = true := by
  obtain ⟨ho, hcnt, hsz, hins⟩ := hide_frame_reinsert cmp x heqx t hfound
  refine ⟨ho, hcnt, hsz, ?_, ?_⟩
  · simp [bistree_insert, bistree_remove, hins]
  · simpa [bistree_insert, bistree_remove, hins] using hfound

/-- Witness for C4 on the concrete tree `finTree` and payload 1. -/
theorem bistree_hide_frame_and_reinsert_restores_witness :
    (∀ b : Fin 4, finCmp 1 b = 0 → (1 : Fin 4) = b) ∧
    (lookupAux finCmp 1 finTree).isSome = true ∧
    (OnlyFlagsSet finTree (bistree_remove finCmp finTree 1).1 ∧
      (bistree_remove finCmp finTree 1).1.hiddenCount = finTree.hiddenCount + 1 ∧
      (bistree_remove finCmp finTree 1).1.size = finTree.size ∧
      bistree_insert finCmp (bistree_remove finCmp finTree 1).1 1 = (finTree, 0) ∧
      (lookupAux finCmp 1
        (bistree_insert finCmp (bistree_remove finCmp finTree 1).1 1).1).isSome
        = true) :=
  ⟨by decide, by decide,
    bistree_hide_frame_and_reinsert_restores finCmp 1 (by decide) finTree
      (by decide)⟩

/-- C5: after `morse_init` inserts the canonical fixed alphabet
sequence, the root's left child holds `'E'` and its right child holds
`'T'`, and single-character encoding without separators yields `"."`
for `'E'`, `"-"` for `'T'`, `"..."` for `'S'` and `"---"` for
`'O'`. -/
theorem morse_tree_shape_and_basic_codes :
    BTree.leftChildData morse_init = some 'E' ∧
    BTree.rightChildData morse_init = some 'T' ∧
    s_morse_encode_char morse_init 'E' false = some ['.'] ∧
    s_morse_encode_char morse_init 'T' false = some ['-'] ∧
    s_morse_encode_char morse_init 'S' false = some ['.', '.', '.'] ∧
    s_morse_encode_char morse_init 'O' false = some ['-', '-', '-'] := by
  refine ⟨?_, ?_, ?_, ?_, ?_, ?_⟩ <;> decide

/-- C6 counterexample: with separators enabled, `morse_encode` of
`"SOS"` is not the bare `"... --- ..."`: every dit and dah is followed
by the one-space symbol separator, so the claimed output is wrong. -/
theorem morse_encode_sos_not_bare_code :
    ¬(morse_encode morse_init ("SOS".toList) MORSE_USE_SEPARATORS =
      some ("... --- ...".toList)) := by
  decide

/-- C6 amended: with separators enabled, `morse_encode` of `"SOS"`
produces `". . .   - - -   . . . "` — each dit/dah followed by a
one-space symbol separator, letters separated by an additional
two-space inter-letter gap (three spaces in all), no inter-word gap,
and a trailing space — and `morse_decode` of that string with
separators enabled returns `"SOS"`. -/
theorem morse_encode_sos_actual_and_roundtrip :
    morse_encode morse_init ("SOS".toList) MORSE_USE_SEPARATORS =
      some (". . .   - - -   . . . ".toList) ∧
    (morse_decode morse_init (". . .   - - -   . . . ".toList)
      MORSE_USE_SEPARATORS).2 = "SOS".toList := by
  refine ⟨?_, ?_⟩ <;> decide

/-- C7 counterexample: on a perfectly valid (non-null) tree — the
codec tree with `'E'` hidden by `bistree_remove` — `morse_encode` of
`"E"` returns -1 (`none`): the per-character encode failure is not
swallowed, contradicting the claim that message-level failure occurs
only for null arguments. -/
theorem morse_encode_fails_on_hidden_char :
    morseTreeHiddenE ≠ BTree.nil ∧
    morse_encode morseTreeHiddenE ['E'] MORSE_NO_FLAGS = none := by
  refine ⟨?_, ?_⟩ <;> decide

/-- C7 amended: `morse_decode` never fails for (non-null) arguments —
tokens that fail to decode are silently omitted — and characters
outside the priority table are silently skipped by `morse_encode`; but
`morse_encode` returns -1 as soon as some character that passes the
`strchr` table check (from the source text, or from a prosign when
that flag is set) fails the tree encoding, e.g. because its node is
hidden. -/
theorem morse_message_failure_policy :
    (∀ (t : BTree Char) (src : List Char) (flags : Nat),
      (morse_decode t src flags).1 = 0) ∧
    (∀ (t : BTree Char) (src : List Char) (flags : Nat),
      morse_encode t src flags = none →
      ∃ c : Char, (MORSE_WEIGHTED_NODES.contains (c_toupper c)) = true ∧
        s_morse_encode_char t c (sepFlag flags) = none ∧
        (c ∈ src ∨ (prosFlag flags = true ∧
          (c ∈ MORSE_PROSIGN_CT ∨ c ∈ MORSE_PROSIGN_SK)))) := by
  constructor
  · intro t src flags
    rfl
  · intro t src flags h
    have htabCT : ∀ c ∈ MORSE_PROSIGN_CT,
        (MORSE_WEIGHTED_NODES.contains (c_toupper c)) = true := by decide
    have htabSK : ∀ c ∈ MORSE_PROSIGN_SK,
        (MORSE_WEIGHTED_NODES.contains (c_toupper c)) = true := by decide
    simp only [morse_encode] at h
    cases hpros : prosFlag flags with
    | false =>
      rw [hpros] at h
      simp only [Bool.false_eq_true, if_false] at h
      cases hloop : encodeLoop t (sepFlag flags) src with
      | none =>
        obtain ⟨c, hm, htab, hn⟩ := encodeLoop_none t (sepFlag flags) src hloop
        exact ⟨c, htab, hn, Or.inl hm⟩
      | some body => rw [hloop] at h; exact absurd h (by simp)
    | true =>
      rw [hpros] at h
      simp only [if_true] at h
      cases hCT : encodeProsign t (sepFlag flags) MORSE_PROSIGN_CT with
      | none =>
        obtain ⟨c, hm, hn⟩ := encodeProsign_none t (sepFlag flags) _ hCT
        exact ⟨c, htabCT c hm, hn, Or.inr ⟨rfl, Or.inl hm⟩⟩
      | some pre =>
        rw [hCT] at h
        cases hloop : encodeLoop t (sepFlag flags) src with
        | none =>
          obtain ⟨c, hm, htab, hn⟩ := encodeLoop_none t (sepFlag flags) src hloop
          exact ⟨c, htab, hn, Or.inl hm⟩
        | some body =>
          rw [hloop] at h
          cases hSK : encodeProsign t (sepFlag flags) MORSE_PROSIGN_SK with
          | none =>
            obtain ⟨c, hm, hn⟩ := encodeProsign_none t (sepFlag flags) _ hSK
            exact ⟨c, htabSK c hm, hn, Or.inr ⟨rfl, Or.inr hm⟩⟩
          | some post => rw [hSK] at h; exact absurd h (by simp)

/-- Witness for C7 amended: the hidden-'E' tree with source `"E"`
makes `morse_encode` fail, and the theorem locates the failing
character. -/
theorem morse_message_failure_policy_witness :
    (morse_decode morse_init ['.'] MORSE_NO_FLAGS).1 = 0 ∧
    (∃ c : Char, (MORSE_WEIGHTED_NODES.contains (c_toupper c)) = true ∧
      s_morse_encode_char morseTreeHiddenE c (sepFlag MORSE_NO_FLAGS) = none ∧
      (c ∈ (['E'] : List Char) ∨ (prosFlag MORSE_NO_FLAGS = true ∧
        (c ∈ MORSE_PROSIGN_CT ∨ c ∈ MORSE_PROSIGN_SK)))) :=
  ⟨morse_message_failure_policy.1 morse_init ['.'] MORSE_NO_FLAGS,
    morse_message_failure_policy.2 morseTreeHiddenE ['E'] MORSE_NO_FLAGS
      (by decide)⟩

set_option maxRecDepth 4000 in
/-- C8 (code bug, failing input: 168 copies of `'O'`): `morse_encode`
does not bound its output by `MORSE_MESSAGE_MAX_LENGTH` — here it
produces 504 characters, so with a destination buffer of the fixed
capacity the C code writes past the end.  (Only `morse_decode` checks
the bound.) -/
theorem morse_encode_output_exceeds_max_length :
    MORSE_MESSAGE_MAX_LENGTH <
      ((morse_encode morse_init (List.replicate 168 'O')
        MORSE_NO_FLAGS).getD []).length := by
  decide

/-- C9 counterexample: the tree built by `morse_init` holds 44 nodes,
not 45. -/
theorem morse_init_size_not_45 : ¬(BTree.size morse_init = 45) := by
  decide

/-- C9 amended: the insertion sequence holds 44 symbols — the
45-element buffer (`MORSE_MAX_NODES`) includes the terminating NUL,
which the generation loop skips — so after `morse_init` the tree
contains exactly 44 nodes. -/
theorem morse_init_size_44 :
    morse_nodes.length + 1 = MORSE_MAX_NODES ∧
    BTree.size morse_init = 44 := by
  refine ⟨?_, ?_⟩ <;> decide

/-- C10: `s_compare` is case-insensitive in each argument (C `toupper`
is applied before the table lookup), single-character encoding and
lookup of a lowercased character behave identically to the original,
and every payload stored in the codec tree is its own uppercase form —
so decoding returns the uppercase form stored in the tree. -/
theorem s_compare_case_insensitive_encode_lookup :
    (∀ c1 c2 : Char,
      s_compare (c_tolower c1) c2 = s_compare c1 c2 ∧
      s_compare (c_toupper c1) c2 = s_compare c1 c2 ∧
      s_compare c1 (c_tolower c2) = s_compare c1 c2 ∧
      s_compare c1 (c_toupper c2) = s_compare c1 c2) ∧
    (∀ (t : BTree Char) (c : Char) (sep : Bool),
      s_morse_encode_char t (c_tolower c) sep = s_morse_encode_char t c sep ∧
      s_morse_encode_char t (c_toupper c) sep = s_morse_encode_char t c sep) ∧
    (∀ (t : BTree Char) (c : Char),
      lookupAux s_compare (c_tolower c) t = lookupAux s_compare c t ∧
      lookupAux s_compare (c_toupper c) t = lookupAux s_compare c t) ∧
    Forall (fun d => c_toupper d = d) morse_init := by
  refine ⟨?_, ?_, ?_, ?_⟩
  · intro c1 c2
    exact ⟨s_compare_tolower_left c1 c2, s_compare_toupper_left c1 c2,
      s_compare_tolower_right c1 c2, s_compare_toupper_right c1 c2⟩
  · intro t c sep
    exact ⟨s_morse_encode_char_tolower c sep t, s_morse_encode_char_toupper c sep t⟩
  · intro t c
    exact ⟨lookupAux_tolower c t, lookupAux_toupper c t⟩
  · decide

end MorseRepo
